import Mathlib

set_option linter.unusedVariables false
set_option linter.unnecessarySimpa false

/-!
Shallow embedding of `src/src/App.jsx` (DalliKlick).

JS `number` arithmetic on the values that matter here (32-bit LCG states,
array indices, step counters, rational step fractions) is modelled exactly:
unsigned 32-bit wrap-around (`>>> 0`, the LCG modulus) becomes `% 2^32` on `ℕ`,
signed counters become `ℤ`, and the non-integer arithmetic of
`pointsForStep` / `tilesToShow` / the noise overlay is carried out over `ℚ`
(the real-number reading of the source; all quantities involved are rationals).
-/

namespace DalliKlick

/-- `2^32`: the wrap-around modulus of `>>> 0` and hence of the LCG state. -/
def UINT32 : ℕ := 4294967296

/-- `const clamp = (v, a, b) => Math.max(a, Math.min(b, v));` (App.jsx line 3). -/
def clamp {α : Type} [LinearOrder α] (v a b : α) : α := max a (min b v)

/-- `const lerp = (a, b, t) => a + (b - a) * t;` (App.jsx line 4). -/
def lerp (a b t : ℚ) : ℚ := a + (b - a) * t

/-- One LCG update `s = (1664525 * s + 1013904223) >>> 0`, shared by
`makeRandomOrder` (line 20) and `createRng` (line 63). -/
def lcg (s : ℕ) : ℕ := (1664525 * s + 1013904223) % UINT32

/-- The value returned by the closure `rnd()` after the state update:
`s' / 2 ** 32`, a rational in `[0, 1)`. -/
def rndVal (s' : ℕ) : ℚ := (s' : ℚ) / (UINT32 : ℚ)

/-- `[arr[i], arr[j]] = [arr[j], arr[i]]` (App.jsx line 25): both cells are read
first, then written. -/
def swapList (l : List ℕ) (i j : ℕ) : List ℕ :=
  (l.set i (l.getD j 0)).set j (l.getD i 0)

/-- The loop `for (let i = arr.length - 1; i > 0; i--)` of `makeRandomOrder`
(App.jsx lines 23-26).  The first argument of the recursion is the current
loop index `i` (the loop body runs while `i > 0`), `s` is the current LCG
state.  `Math.floor(rnd() * (i + 1))` with `rnd() = s' / 2^32` is exactly the
natural division `s' * (i + 1) / 2^32` (lemma `floor_rndVal_mul`). -/
def fyLoop : List ℕ → ℕ → ℕ → List ℕ
  | l, _, 0 => l
  | l, s, i + 1 =>
    let s' := lcg s
    let j := s' * (i + 2) / UINT32
    fyLoop (swapList l (i + 1) j) s' i

/-- `makeRandomOrder(tileCount, seed = 1)` (App.jsx lines 17-28):
Fisher-Yates shuffle of `[0, …, tileCount-1]` driven by the LCG seeded with
`seed >>> 0`. -/
def makeRandomOrder (tileCount : ℕ) (seed : ℕ := 1) : List ℕ :=
  fyLoop (List.range tileCount) (seed % UINT32) (tileCount - 1)

/-- `[a, a+1, …, b]`: an ascending `for` loop over `ℤ` (empty when `b < a`). -/
def rangeAsc (a b : ℤ) : List ℤ :=
  (List.range (b + 1 - a).toNat).map (fun i : ℕ => a + (i : ℤ))

/-- `[b, b-1, …, a]`: a descending `for` loop over `ℤ` (empty when `b < a`). -/
def rangeDesc (b a : ℤ) : List ℤ :=
  (List.range (b + 1 - a).toNat).map (fun i : ℕ => b - (i : ℤ))

/-- The loop `while (top <= bottom && left <= right)` of `makeSpiralOrder`
(App.jsx lines 37-50): emit the top row left-to-right, the right column
top-to-bottom, then (guarded) the bottom row right-to-left and the left column
bottom-to-top, and shrink all four bounds inward by one. -/
def spiralWhile (tileN top bottom left right : ℤ) : List ℤ :=
  if h : top ≤ bottom ∧ left ≤ right then
    (rangeAsc left right).map (fun x => top * tileN + x) ++
      ((rangeAsc (top + 1) bottom).map (fun y => y * tileN + right) ++
        ((if top < bottom then
            (rangeDesc (right - 1) left).map (fun x => bottom * tileN + x)
          else []) ++
          ((if left < right then
              (rangeDesc (bottom - 1) (top + 1)).map (fun y => y * tileN + left)
            else []) ++
            spiralWhile tileN (top + 1) (bottom - 1) (left + 1) (right - 1))))
  else []
termination_by (bottom + 1 - top).toNat
decreasing_by
  simp_wf
  omega

/-- `makeSpiralOrder(tileN, direction = "outside-in", seed = 1)`
(App.jsx lines 30-55). -/
def makeSpiralOrder (tileN : ℕ) (direction : String := "outside-in")
    (seed : ℕ := 1) : List ℤ :=
  let order := spiralWhile (tileN : ℤ) 0 ((tileN : ℤ) - 1) 0 ((tileN : ℤ) - 1)
  let baseOrder := if direction = "inside-out" then order.reverse else order
  let rotation := if baseOrder.length ≠ 0 then seed % baseOrder.length else 0
  baseOrder.drop rotation ++ baseOrder.take rotation

/-- `makeSegmentOrder(segments, seed = 1)` (App.jsx lines 57-59):
`return makeRandomOrder(segments, seed);`. -/
def makeSegmentOrder (segments : ℕ) (seed : ℕ := 1) : List ℕ :=
  makeRandomOrder segments seed

/-- `pointsForStep(stepIndex, stepsTotal, maxPoints = 20)` (App.jsx lines
66-71). -/
def pointsForStep (stepIndex : ℤ) (stepsTotal : ℕ) (maxPoints : ℤ := 20) : ℤ :=
  let t : ℚ := (stepIndex : ℚ) / max ((stepsTotal : ℚ) - 1) 1
  let pts : ℤ := round (lerp (maxPoints : ℚ) 1 t)
  clamp pts 1 maxPoints

/-- `const tilesToShow = Math.floor((stepIndex / stepsTotal) * tileCount);`
(App.jsx line 253); `prevTiles` (line 254) is the same expression at
`Math.max(stepIndex - 1, 0)`. -/
def tilesToShow (stepIndex : ℤ) (stepsTotal tileCount : ℕ) : ℤ :=
  ⌊((stepIndex : ℚ) / (stepsTotal : ℚ)) * (tileCount : ℚ)⌋

/-- One loaded image `{name, url}` (App.jsx line 77). -/
structure ImageFile where
  name : String
  url : String
deriving DecidableEq, Repr

/-- One team `{name, score}` (App.jsx lines 82-85). -/
structure Team where
  name : String
  score : ℤ
deriving DecidableEq, Repr

/-- The `useState` hooks of `App` (App.jsx lines 77-104) that the modelled
operations read or write.  Purely visual settings no modelled operation
touches (`disturb`, `showHud`, `img`, `isGameActive`) are not carried. -/
structure GameState where
  files : List ImageFile
  current : ℕ
  teams : List Team
  tileN : ℕ
  revealMode : String
  spiralDirection : String
  wedgeSegments : ℕ
  stepsTotal : ℕ
  stepIndex : ℤ
  seed : ℕ
deriving DecidableEq, Repr

/-- The `useState` initial values (App.jsx lines 77-104). -/
def initialState : GameState :=
  { files := []
    current := 0
    teams := [{ name := "A", score := 0 }, { name := "B", score := 0 }]
    tileN := 18
    revealMode := "GRID_RANDOM"
    spiralDirection := "outside-in"
    wedgeSegments := 18
    stepsTotal := 20
    stepIndex := 0
    seed := 1 }

/-- The `revealOrder` memo (App.jsx lines 105-110); `tileCount = tileN * tileN`
(line 97).  Entries are cast to `ℤ` to share the cell type with the spiral
branch. -/
def revealOrderOf (g : GameState) : List ℤ :=
  if g.revealMode = "SPIRAL_GRID" then
    makeSpiralOrder g.tileN g.spiralDirection g.seed
  else
    (makeRandomOrder (g.tileN * g.tileN) g.seed).map (fun n => (n : ℤ))

/-- The `wedgeOrder` memo (App.jsx lines 111-114). -/
def wedgeOrderOf (g : GameState) : List ℕ :=
  makeSegmentOrder g.wedgeSegments g.seed

/-- `nextStep` (App.jsx line 136):
`setStepIndex((s) => clamp(s + 1, 0, stepsTotal))`. -/
def nextStep (g : GameState) : GameState :=
  { g with stepIndex := clamp (g.stepIndex + 1) 0 (g.stepsTotal : ℤ) }

/-- `prevStep` (App.jsx line 137):
`setStepIndex((s) => clamp(s - 1, 0, stepsTotal))`. -/
def prevStep (g : GameState) : GameState :=
  { g with stepIndex := clamp (g.stepIndex - 1) 0 (g.stepsTotal : ℤ) }

/-- `resetRound` (App.jsx lines 138-141): step 0 and seed bumped. -/
def resetRound (g : GameState) : GameState :=
  { g with stepIndex := 0, seed := g.seed + 1 }

/-- `nextImage` (App.jsx lines 142-146): the guard `if (!files.length) return;`
leaves the state unchanged; otherwise `current` advances circularly and
`resetRound()` runs. -/
def nextImage (g : GameState) : GameState :=
  if g.files.length = 0 then g
  else resetRound { g with current := (g.current + 1) % g.files.length }

/-- `awardTeam(teamIdx)` (App.jsx lines 148-154): points are computed at the
step *before* `nextImage()` resets it, and only team `teamIdx`'s score
changes. -/
def awardTeam (g : GameState) (teamIdx : ℕ) : GameState :=
  let pts := pointsForStep g.stepIndex g.stepsTotal 20
  nextImage
    { g with
      teams := g.teams.mapIdx fun i x =>
        if i = teamIdx then { x with score := x.score + pts } else x }

/-- One confetti speck drawn by `ctx.fillRect(x, y, size, size)` with colour
`rgba(r, g, b, noiseStrength)` (App.jsx lines 368-375). -/
structure Speck where
  x : ℚ
  y : ℚ
  size : ℚ
  r : ℤ
  g : ℤ
  b : ℤ
deriving DecidableEq, Repr

/-- The speck loop `for (let i = 0; i < count; i++)` (App.jsx lines 367-376):
each iteration draws six fresh LCG values (size, x, y, r, g, b) from the
stream started at state `s`. -/
def noiseSpecks (s : ℕ) (dx dy dw dh : ℚ) : ℕ → List Speck
  | 0 => []
  | n + 1 =>
    let s1 := lcg s
    let size := lerp 2 6 (rndVal s1)
    let s2 := lcg s1
    let x := dx + rndVal s2 * (dw - size)
    let s3 := lcg s2
    let y := dy + rndVal s3 * (dh - size)
    let s4 := lcg s3
    let r := ⌊(80 : ℚ) + rndVal s4 * 175⌋
    let s5 := lcg s4
    let gc := ⌊(80 : ℚ) + rndVal s5 * 175⌋
    let s6 := lcg s5
    let b := ⌊(80 : ℚ) + rndVal s6 * 175⌋
    { x := x, y := y, size := size, r := r, g := gc, b := b } ::
      noiseSpecks s6 dx dy dw dh n

/-- The noise ("Confetti") overlay of `draw` (App.jsx lines 360-377), returning
the common opacity `noiseStrength` and the drawn specks.  Its RNG is
`createRng(seed * 997 + stepIndex * 911)` (line 363), so the stream restarts
from the session seed and step on every frame.  `t = clamp(disturb / 10, 0, 1)`
and `revealProgress = clamp(stepIndex / stepsTotal, 0, 1)` come from lines
234-235; `dx, dy, dw, dh` is the fitted image rectangle.  `now` and
`lastStepTime` are the wall-clock readings available inside `draw`
(`performance.now()` line 257 and `lastStepRef` line 256): the noise block
reads neither. -/
def noiseOverlay (seed : ℕ) (stepIndex : ℤ) (stepsTotal disturb : ℕ)
    (dx dy dw dh : ℚ) (now lastStepTime : ℚ) : ℚ × List Speck :=
  let t : ℚ := clamp ((disturb : ℚ) / 10) 0 1
  let revealProgress : ℚ := clamp ((stepIndex : ℚ) / (stepsTotal : ℚ)) 0 1
  let noiseStrength := lerp 0.08 0.45 t * lerp 1 0.2 revealProgress
  if noiseStrength > 0.01 then
    let s0 : ℕ := (((seed : ℤ) * 997 + stepIndex * 911) % (UINT32 : ℤ)).toNat
    let area := dw * dh
    let density := lerp 0.0008 0.006 t * lerp 1 0.25 revealProgress
    let count : ℤ := ⌊area * density⌋
    (noiseStrength, noiseSpecks s0 dx dy dw dh count.toNat)
  else (noiseStrength, [])

/-! ### Basic arithmetic lemmas -/

/-- `round` on `ℚ` is monotone (JS `Math.round` is `⌊x + 1/2⌋`). -/
theorem round_mono_rat {x y : ℚ} (h : x ≤ y) : round x ≤ round y := by
  rw [round_eq, round_eq]
  exact Int.floor_mono (by linarith)

/-- Field division of naturals floors to natural division. -/
theorem floor_natCast_div (m n : ℕ) : ⌊((m : ℚ) / (n : ℚ))⌋ = ((m / n : ℕ) : ℤ) := by
  rw [← Int.natCast_floor_eq_floor (by positivity), Nat.floor_div_eq_div]

/-- `Math.floor(rnd() * k)` with `rnd() = s / 2^32` is the natural division
`s * k / 2^32`: the `j` computed in `fyLoop` is exactly the source's
`Math.floor(rnd() * (i + 1))`. -/
theorem floor_rndVal_mul (s k : ℕ) :
    ⌊rndVal s * (k : ℚ)⌋ = ((s * k / UINT32 : ℕ) : ℤ) := by
  have h : rndVal s * (k : ℚ) = ((s * k : ℕ) : ℚ) / ((UINT32 : ℕ) : ℚ) := by
    unfold rndVal
    push_cast
    ring
  rw [h, floor_natCast_div]

/-! ### Claim C2: the reveal scheduler -/

/-- C2: with `stepsTotal ≥ 1`, the visible-unit count
`tilesToShow = ⌊step/stepsTotal * unitCount⌋` is `0` at step `0`, exactly
`unitCount` at step `stepsTotal`, monotonically non-decreasing in the step,
and the incoming-unit count `tilesToShow step - tilesToShow (max (step-1) 0)`
is never negative. -/
theorem C2_visibleCount (stepsTotal tileCount : ℕ) (hT : 1 ≤ stepsTotal) :
    tilesToShow 0 stepsTotal tileCount = 0 ∧
    tilesToShow (stepsTotal : ℤ) stepsTotal tileCount = (tileCount : ℤ) ∧
    (∀ step1 step2 : ℤ, step1 ≤ step2 →
      tilesToShow step1 stepsTotal tileCount ≤ tilesToShow step2 stepsTotal tileCount) ∧
    (∀ step : ℤ, 0 ≤ step →
      tilesToShow (max (step - 1) 0) stepsTotal tileCount ≤
        tilesToShow step stepsTotal tileCount) := by
  have hT' : (0 : ℚ) < (stepsTotal : ℚ) := by
    exact_mod_cast Nat.lt_of_lt_of_le Nat.zero_lt_one hT
  have mono : ∀ step1 step2 : ℤ, step1 ≤ step2 →
      tilesToShow step1 stepsTotal tileCount ≤ tilesToShow step2 stepsTotal tileCount := by
    intro s1 s2 h
    apply Int.floor_mono
    apply mul_le_mul_of_nonneg_right _ (by positivity)
    exact div_le_div_of_nonneg_right (by exact_mod_cast h) hT'.le
  refine ⟨?_, ?_, mono, fun step h => mono _ _ (by omega)⟩
  · simp [tilesToShow]
  · unfold tilesToShow
    rw [Int.cast_natCast, div_self (ne_of_gt hT'), one_mul, Int.floor_natCast]

/-- Witness for C2 at the spec's scenario `stepsTotal = 10`, `unitCount = 16`. -/
theorem C2_visibleCount_witness :
    1 ≤ 10 ∧ tilesToShow 0 10 16 = 0 ∧
      tilesToShow ((10 : ℕ) : ℤ) 10 16 = ((16 : ℕ) : ℤ) :=
  ⟨by norm_num, (C2_visibleCount 10 16 (by norm_num)).1,
    (C2_visibleCount 10 16 (by norm_num)).2.1⟩

/-! ### Claim C3: the scoring function -/

/-- C3: `pointsForStep(step, stepsTotal, maxPoints)` is
`clamp(round(lerp(maxPoints, 1, step / max(stepsTotal - 1, 1))), 1, maxPoints)`;
for `maxPoints ≥ 1` it lies in `[1, maxPoints]`, is monotonically
non-increasing in the step, equals `maxPoints` at step `0`, and equals `1` at
step `stepsTotal - 1` or beyond (for `stepsTotal > 1`), for every
`stepsTotal`. -/
theorem C3_pointsForStep (stepsTotal : ℕ) (maxPoints : ℤ) (hm : 1 ≤ maxPoints) :
    (∀ step : ℤ,
      pointsForStep step stepsTotal maxPoints =
        clamp (round (lerp (maxPoints : ℚ) 1
          ((step : ℚ) / max ((stepsTotal : ℚ) - 1) 1))) 1 maxPoints) ∧
    (∀ step : ℤ, 1 ≤ pointsForStep step stepsTotal maxPoints ∧
      pointsForStep step stepsTotal maxPoints ≤ maxPoints) ∧
    (∀ step1 step2 : ℤ, step1 ≤ step2 →
      pointsForStep step2 stepsTotal maxPoints ≤ pointsForStep step1 stepsTotal maxPoints) ∧
    pointsForStep 0 stepsTotal maxPoints = maxPoints ∧
    (1 < stepsTotal → ∀ step : ℤ, (stepsTotal : ℤ) - 1 ≤ step →
      pointsForStep step stepsTotal maxPoints = 1) := by
  have hm' : (1 : ℚ) ≤ (maxPoints : ℚ) := by exact_mod_cast hm
  have hD : (0 : ℚ) < max ((stepsTotal : ℚ) - 1) 1 :=
    lt_of_lt_of_le one_pos (le_max_right _ _)
  refine ⟨fun step => rfl, ?_, ?_, ?_, ?_⟩
  · intro step
    simp only [pointsForStep, clamp]
    omega
  · intro s1 s2 h12
    have ht : (s1 : ℚ) / max ((stepsTotal : ℚ) - 1) 1 ≤
        (s2 : ℚ) / max ((stepsTotal : ℚ) - 1) 1 :=
      div_le_div_of_nonneg_right (by exact_mod_cast h12) hD.le
    have hlerp := round_mono_rat (show
        (maxPoints : ℚ) + (1 - (maxPoints : ℚ)) * ((s2 : ℚ) / max ((stepsTotal : ℚ) - 1) 1) ≤
        (maxPoints : ℚ) + (1 - (maxPoints : ℚ)) * ((s1 : ℚ) / max ((stepsTotal : ℚ) - 1) 1) by
      nlinarith [mul_nonneg (sub_nonneg.mpr hm') (sub_nonneg.mpr ht)])
    simp only [pointsForStep, lerp, clamp]
    omega
  · have h0 : ((0 : ℤ) : ℚ) / max ((stepsTotal : ℚ) - 1) 1 = 0 := by
      norm_num
    simp only [pointsForStep, lerp, clamp, h0, mul_zero, add_zero, round_intCast]
    omega
  · intro hT step hstep
    have h2 : (2 : ℚ) ≤ (stepsTotal : ℚ) := by exact_mod_cast hT
    have hDeq : max ((stepsTotal : ℚ) - 1) 1 = (stepsTotal : ℚ) - 1 :=
      max_eq_left (by linarith)
    have hstep' : (stepsTotal : ℚ) - 1 ≤ (step : ℚ) := by exact_mod_cast hstep
    have ht1 : (1 : ℚ) ≤ (step : ℚ) / ((stepsTotal : ℚ) - 1) :=
      (one_le_div (by linarith)).mpr hstep'
    have hlerp : lerp (maxPoints : ℚ) 1 ((step : ℚ) / ((stepsTotal : ℚ) - 1)) ≤ 1 := by
      unfold lerp
      nlinarith [mul_nonneg (sub_nonneg.mpr hm') (sub_nonneg.mpr ht1)]
    have hr := round_mono_rat hlerp
    rw [round_one] at hr
    simp only [pointsForStep, clamp, hDeq]
    omega

/-- Witness for C3 at `stepsTotal = 20`, `maxPoints = 20`: full points at step
0, exactly 1 point at step 19. -/
theorem C3_pointsForStep_witness :
    (1 : ℤ) ≤ 20 ∧ pointsForStep 0 20 20 = 20 ∧ pointsForStep 19 20 20 = 1 :=
  ⟨by norm_num, (C3_pointsForStep 20 20 (by norm_num)).2.2.2.1,
    (C3_pointsForStep 20 20 (by norm_num)).2.2.2.2 (by norm_num) 19 (by norm_num)⟩

/-! ### The session state machine -/

/-- States reachable from `g0` by the modelled operations (the handlers wired
to the buttons and keyboard shortcuts, App.jsx lines 136-154). -/
inductive Reaches (g0 : GameState) : GameState → Prop
  | refl : Reaches g0 g0
  | next {g} : Reaches g0 g → Reaches g0 (nextStep g)
  | prev {g} : Reaches g0 g → Reaches g0 (prevStep g)
  | reset {g} : Reaches g0 g → Reaches g0 (resetRound g)
  | image {g} : Reaches g0 g → Reaches g0 (nextImage g)
  | award {g} (teamIdx : ℕ) : Reaches g0 g → Reaches g0 (awardTeam g teamIdx)

/-- Evaluating `pointsForStep(3, 20, 20)` (the spec's award scenario):
`round(lerp(20, 1, 3/19)) = round(17) = 17`. -/
theorem pointsForStep_3_20 : pointsForStep 3 20 20 = 17 := by
  have h1 : ((3 : ℤ) : ℚ) / max (((20 : ℕ) : ℚ) - 1) 1 = 3 / 19 := by norm_num
  have h2 : lerp ((20 : ℤ) : ℚ) 1 (3 / 19) = 17 := by norm_num [lerp]
  simp only [pointsForStep, h1, h2, clamp]
  norm_num

/-- `getD` through `mapIdx` at an in-bounds index applies the indexed
function. -/
theorem getD_mapIdx {α β : Type} (l : List α) (f : ℕ → α → β) (j : ℕ)
    (d : α) (d' : β) (hj : j < l.length) :
    (l.mapIdx f).getD j d' = f j (l.getD j d) := by
  rw [List.getD_eq_getElem _ _ (by simpa using hj), List.getD_eq_getElem _ _ hj]
  simpa using List.get_mapIdx l f j hj

/-! ### Claim C8: the step range invariant -/

/-- C8: from any start state with step 0, every state reachable through
`nextStep`, `prevStep`, `resetRound`, `nextImage` and `awardTeam` keeps
`0 ≤ stepIndex ≤ stepsTotal`. -/
theorem C8_step_in_range (g0 g : GameState) (h0 : g0.stepIndex = 0)
    (hr : Reaches g0 g) : 0 ≤ g.stepIndex ∧ g.stepIndex ≤ (g.stepsTotal : ℤ) := by
  induction hr with
  | refl => omega
  | next ih =>
    simp only [nextStep, clamp]
    omega
  | prev ih =>
    simp only [prevStep, clamp]
    omega
  | reset ih =>
    simp only [resetRound]
    omega
  | image hprem ih =>
    simp only [nextImage]
    split
    · exact ih
    · simp only [resetRound]
      omega
  | award teamIdx hprem ih =>
    simp only [awardTeam, nextImage]
    split
    · exact ih
    · simp only [resetRound]
      omega

/-- Witness for C8: the invariant at the concrete state reached from the
initial state by one `nextStep`. -/
theorem C8_step_in_range_witness :
    initialState.stepIndex = 0 ∧
      0 ≤ (nextStep initialState).stepIndex ∧
      (nextStep initialState).stepIndex ≤ ((nextStep initialState).stepsTotal : ℤ) :=
  ⟨rfl,
    (C8_step_in_range initialState (nextStep initialState) rfl
      (Reaches.next Reaches.refl)).1,
    (C8_step_in_range initialState (nextStep initialState) rfl
      (Reaches.next Reaches.refl)).2⟩

/-! ### Claim C10: `nextImage` with an empty image list -/

/-- C10: with no files loaded, `nextImage` is a complete no-op (the guard
`if (!files.length) return;`), and `awardTeam` still adds the points but
leaves `stepIndex`, `seed` and `current` unchanged. -/
theorem C10_nextImage_empty (g : GameState) (teamIdx : ℕ) (h : g.files = []) :
    nextImage g = g ∧
    (awardTeam g teamIdx).stepIndex = g.stepIndex ∧
    (awardTeam g teamIdx).seed = g.seed ∧
    (awardTeam g teamIdx).current = g.current ∧
    (awardTeam g teamIdx).teams = (g.teams.mapIdx fun i x =>
      if i = teamIdx then
        { x with score := x.score + pointsForStep g.stepIndex g.stepsTotal 20 }
      else x) := by
  simp [awardTeam, nextImage, h]

/-- Witness for C10 at the initial state (which has no files loaded). -/
theorem C10_nextImage_empty_witness :
    initialState.files = [] ∧ nextImage initialState = initialState ∧
      (awardTeam initialState 0).stepIndex = initialState.stepIndex ∧
      (awardTeam initialState 0).seed = initialState.seed :=
  ⟨rfl, (C10_nextImage_empty initialState 0 rfl).1,
    (C10_nextImage_empty initialState 0 rfl).2.1,
    (C10_nextImage_empty initialState 0 rfl).2.2.1⟩

/-! ### Claim C5: awarding a team -/

/-- A concrete mid-round state (two images loaded, scores 5 and 7, step 3 of
20), used to witness the award scenario. -/
def demoState : GameState :=
  { initialState with
    files := [{ name := "a.png", url := "blob:a" }, { name := "b.png", url := "blob:b" }]
    teams := [{ name := "A", score := 5 }, { name := "B", score := 7 }]
    stepIndex := 3 }

/-- C5: with images loaded, `awardTeam(teamIdx)` adds exactly
`pointsForStep(stepIndex, stepsTotal, 20)` to team `teamIdx` (other teams
unchanged), advances `current` circularly by one, resets the step to 0 and
bumps the seed; at step 3 of 20 with maxPoints 20 the points are exactly
17. -/
theorem C5_awardTeam (g : GameState) (teamIdx : ℕ) (hf : g.files ≠ [])
    (hi : teamIdx < g.teams.length) :
    ((awardTeam g teamIdx).teams.getD teamIdx { name := "", score := 0 }).score =
      (g.teams.getD teamIdx { name := "", score := 0 }).score +
        pointsForStep g.stepIndex g.stepsTotal 20 ∧
    (∀ j : ℕ, j ≠ teamIdx →
      (awardTeam g teamIdx).teams.getD j { name := "", score := 0 } =
        g.teams.getD j { name := "", score := 0 }) ∧
    (awardTeam g teamIdx).current = (g.current + 1) % g.files.length ∧
    (awardTeam g teamIdx).stepIndex = 0 ∧
    (awardTeam g teamIdx).seed = g.seed + 1 ∧
    pointsForStep 3 20 20 = 17 := by
  have hlen : ¬ g.files.length = 0 := by
    simp only [List.length_eq_zero]
    exact hf
  refine ⟨?_, ?_, ?_, ?_, ?_, pointsForStep_3_20⟩
  · simp only [awardTeam, nextImage, if_neg hlen, resetRound]
    rw [getD_mapIdx g.teams _ teamIdx { name := "", score := 0 } _ hi, if_pos rfl]
  · intro j hj
    simp only [awardTeam, nextImage, if_neg hlen, resetRound]
    by_cases hjl : j < g.teams.length
    · rw [getD_mapIdx g.teams _ j { name := "", score := 0 } _ hjl, if_neg hj]
    · have h1 : g.teams.length ≤ j := by omega
      rw [List.getD_eq_default _ _ (by simpa using h1), List.getD_eq_default _ _ h1]
  · simp [awardTeam, nextImage, resetRound, hf]
  · simp [awardTeam, nextImage, resetRound, hf]
  · simp [awardTeam, nextImage, resetRound, hf]

/-- Witness for C5: awarding team 0 in `demoState` (step 3 of 20) adds exactly
17 points and resets the round. -/
theorem C5_awardTeam_witness :
    demoState.files ≠ [] ∧ 0 < demoState.teams.length ∧
      ((awardTeam demoState 0).teams.getD 0 { name := "", score := 0 }).score =
        (demoState.teams.getD 0 { name := "", score := 0 }).score +
          pointsForStep 3 20 20 ∧
      pointsForStep 3 20 20 = 17 ∧
      (awardTeam demoState 0).stepIndex = 0 :=
  ⟨by decide, by decide,
    (C5_awardTeam demoState 0 (by decide) (by decide)).1,
    (C5_awardTeam demoState 0 (by decide) (by decide)).2.2.2.2.2,
    (C5_awardTeam demoState 0 (by decide) (by decide)).2.2.2.1⟩

/-! ### Claim C7: the round reset -/

/-- C7 counterexample: `resetRound` does change the seed (1 → 2), yet with
unit count `2 > 1` the regenerated reveal order is identical to the previous
round's (`makeRandomOrder(2, 1) = makeRandomOrder(2, 2) = [1, 0]`), so the
order does *not* always differ when `unitCount > 1`. -/
theorem C7_counterexample :
    (resetRound initialState).seed ≠ initialState.seed ∧ 1 < 2 ∧
      makeRandomOrder 2 (resetRound initialState).seed =
        makeRandomOrder 2 initialState.seed :=
  ⟨by decide, by decide, by decide⟩

/-- C7 (amended): after `resetRound`, the step is 0 and the seed differs from
its prior value (`seed := seed + 1`); the reveal order is re-derived from the
new seed, but it may coincide with the previous round's order even for
`unitCount > 1`. -/
theorem C7_resetRound (g : GameState) :
    (resetRound g).stepIndex = 0 ∧ (resetRound g).seed = g.seed + 1 ∧
      (resetRound g).seed ≠ g.seed := by
  refine ⟨rfl, rfl, ?_⟩
  simp only [resetRound]
  omega

/-! ### The Fisher-Yates shuffle produces permutations -/

/-- `getD` through `set` at an in-bounds index. -/
theorem getD_set {α : Type} (l : List α) (i j : ℕ) (v d : α) (hj : j < l.length) :
    (l.set i v).getD j d = if i = j then v else l.getD j d := by
  rw [List.getD_eq_getElem _ _ (by simpa using hj), List.getD_eq_getElem _ _ hj]
  simp [List.getElem_set]

/-- Counting after a single in-bounds `set`: the old entry leaves the
multiset, the new value enters it. -/
theorem count_set_add {α : Type} [DecidableEq α] (l : List α) (n : ℕ) (b d : α)
    (hn : n < l.length) (a : α) :
    (l.set n b).count a + (if l.getD n d = a then 1 else 0) =
      l.count a + (if b = a then 1 else 0) := by
  rw [List.getD_eq_getElem _ _ hn]
  rw [List.set_eq_take_cons_drop b hn]
  conv_rhs =>
    rw [show l = l.take n ++ l[n] :: l.drop (n + 1) by
      conv_lhs => rw [← List.take_append_drop n l]
      rw [List.drop_eq_getElem_cons hn]]
  simp only [List.count_append, List.count_cons, beq_iff_eq]
  split_ifs <;> omega

/-- The destructuring swap is a permutation when both indices are in
bounds. -/
theorem swapList_perm (l : List ℕ) (i j : ℕ) (hi : i < l.length)
    (hj : j < l.length) : (swapList l i j).Perm l := by
  rw [List.perm_iff_count]
  intro a
  have hj' : j < (l.set i (l.getD j 0)).length := by simpa using hj
  have h1 := count_set_add (l.set i (l.getD j 0)) j (l.getD i 0) 0 hj' a
  have h2 := count_set_add l i (l.getD j 0) 0 hi a
  rw [getD_set l i j _ 0 hj, ite_self] at h1
  unfold swapList
  split_ifs at h1 h2 <;> omega

/-- Each LCG state is below `2^32`. -/
theorem lcg_lt (s : ℕ) : lcg s < UINT32 :=
  Nat.mod_lt _ (by norm_num [UINT32])

/-- The swap target `j = Math.floor(rnd() * (i + 1))` is always a valid
index: `j < i + 1`. -/
theorem fy_index_lt (s k : ℕ) (hk : 0 < k) : lcg s * k / UINT32 < k := by
  have h32 : 0 < UINT32 := by norm_num [UINT32]
  rw [Nat.div_lt_iff_lt_mul h32]
  have h := lcg_lt s
  nlinarith

/-- The Fisher-Yates loop only permutes its input list. -/
theorem fyLoop_perm : ∀ (i : ℕ) (l : List ℕ) (s : ℕ), i < l.length →
    (fyLoop l s i).Perm l := by
  intro i
  induction i with
  | zero => intro l s h; exact List.Perm.refl l
  | succ i ih =>
    intro l s h
    show (fyLoop (swapList l (i + 1) (lcg s * (i + 2) / UINT32)) (lcg s) i).Perm l
    have hlen : (swapList l (i + 1) (lcg s * (i + 2) / UINT32)).length = l.length := by
      simp [swapList]
    have hj : lcg s * (i + 2) / UINT32 < l.length := by
      have := fy_index_lt s (i + 2) (by omega)
      omega
    exact (ih _ (lcg s) (by omega)).trans
      (swapList_perm l (i + 1) _ h hj)

/-- `makeRandomOrder(tileCount, seed)` is a permutation of
`[0, …, tileCount-1]`. -/
theorem makeRandomOrder_perm (tileCount seed : ℕ) :
    (makeRandomOrder tileCount seed).Perm (List.range tileCount) := by
  unfold makeRandomOrder
  rcases tileCount with _ | m
  · exact List.Perm.refl _
  · have hm : m < (List.range (m + 1)).length := by simp
    simpa using fyLoop_perm m (List.range (m + 1)) (seed % UINT32) hm

/-! ### The spiral traversal -/

/-- Count of `k` in `range n`. -/
theorem count_range_nat (k n : ℕ) :
    (List.range n).count k = if k < n then 1 else 0 := by
  split_ifs with h
  · exact List.count_eq_one_of_mem (List.nodup_range n) (List.mem_range.mpr h)
  · exact List.count_eq_zero_of_not_mem fun hm => h (List.mem_range.mp hm)

/-- Count of a value in an ascending integer range. -/
theorem count_rangeAsc (a b v : ℤ) :
    (rangeAsc a b).count v = if a ≤ v ∧ v ≤ b then 1 else 0 := by
  unfold rangeAsc
  have hinj : Function.Injective (fun i : ℕ => a + (i : ℤ)) := by
    intro x y hxy
    simp only [add_right_inj, Nat.cast_inj] at hxy
    exact hxy
  by_cases hv : a ≤ v ∧ v ≤ b
  · obtain ⟨h1, h2⟩ := hv
    rw [show v = a + (((v - a).toNat : ℕ) : ℤ) from by omega,
      List.count_map_of_injective _ _ hinj, count_range_nat]
    rw [if_pos (by omega), if_pos (by constructor <;> omega)]
  · rw [if_neg hv]
    apply List.count_eq_zero_of_not_mem
    intro hm
    rcases List.mem_map.mp hm with ⟨i, hi, hiv⟩
    have hilt := List.mem_range.mp hi
    have hiv' : a + (i : ℤ) = v := hiv
    omega

/-- Count of a value in a descending integer range. -/
theorem count_rangeDesc (b a v : ℤ) :
    (rangeDesc b a).count v = if a ≤ v ∧ v ≤ b then 1 else 0 := by
  unfold rangeDesc
  have hinj : Function.Injective (fun i : ℕ => b - (i : ℤ)) := by
    intro x y hxy
    simp only [sub_right_inj, Nat.cast_inj] at hxy
    exact hxy
  by_cases hv : a ≤ v ∧ v ≤ b
  · obtain ⟨h1, h2⟩ := hv
    rw [show v = b - (((b - v).toNat : ℕ) : ℤ) from by omega,
      List.count_map_of_injective _ _ hinj, count_range_nat]
    rw [if_pos (by omega), if_pos (by constructor <;> omega)]
  · rw [if_neg hv]
    apply List.count_eq_zero_of_not_mem
    intro hm
    rcases List.mem_map.mp hm with ⟨i, hi, hiv⟩
    have hilt := List.mem_range.mp hi
    have hiv' : b - (i : ℤ) = v := hiv
    omega

/-- A descending loop visits the same values as the ascending one. -/
theorem rangeDesc_perm (b a : ℤ) : (rangeDesc b a).Perm (rangeAsc a b) := by
  rw [List.perm_iff_count]
  intro v
  rw [count_rangeAsc, count_rangeDesc]

/-- An empty integer range. -/
theorem rangeAsc_empty {a b : ℤ} (h : b < a) : rangeAsc a b = [] := by
  unfold rangeAsc
  rw [show (b + 1 - a).toNat = 0 from by omega]
  rfl

/-- A one-element integer range. -/
theorem rangeAsc_single (a : ℤ) : rangeAsc a a = [a] := by
  unfold rangeAsc
  rw [show (a + 1 - a).toNat = 1 from by omega]
  norm_num [List.range_succ]

/-- Splitting an ascending range at its first element. -/
theorem rangeAsc_split_low {a b : ℤ} (h : a ≤ b) :
    rangeAsc a b = a :: rangeAsc (a + 1) b := by
  unfold rangeAsc
  rw [show (b + 1 - a).toNat = (b + 1 - (a + 1)).toNat + 1 from by omega,
    List.range_succ_eq_map]
  simp only [List.map_cons, List.map_map, Nat.cast_zero, add_zero]
  refine congrArg _ (List.map_congr_left fun i _ => ?_)
  simp only [Function.comp_apply]
  push_cast
  ring

/-- Splitting an ascending range at its last element. -/
theorem rangeAsc_split_high {a b : ℤ} (h : a ≤ b) :
    rangeAsc a b = rangeAsc a (b - 1) ++ [b] := by
  unfold rangeAsc
  rw [show (b + 1 - a).toNat = (b - 1 + 1 - a).toNat + 1 from by omega,
    List.range_succ, List.map_append]
  refine congrArg _ ?_
  simp only [List.map_cons, List.map_nil]
  rw [show a + (((b - 1 + 1 - a).toNat : ℕ) : ℤ) = b from by omega]

/-- One-step unfolding of the exhausted spiral loop. -/
theorem spiralWhile_stop (tileN top bottom left right : ℤ)
    (h : ¬(top ≤ bottom ∧ left ≤ right)) :
    spiralWhile tileN top bottom left right = [] := by
  rw [spiralWhile.eq_def, dif_neg h]

/-- The cells `{y * tileN + x : a ≤ y ≤ b, a ≤ x ≤ b}` of the square window
with corners `(a, a)` and `(b, b)`, listed row by row. -/
def windowCells (tileN a b : ℤ) : List ℤ :=
  (rangeAsc a b).flatMap fun y => (rangeAsc a b).map fun x => y * tileN + x

/-- Each pass of the spiral loop peels exactly the outer ring off the current
square window: over the whole loop, the spiral order is a permutation of the
window's cells. -/
theorem spiralWhile_square_perm (tileN : ℤ) :
    ∀ (n : ℕ) (a b : ℤ), (b + 1 - a).toNat = n →
      (spiralWhile tileN a b a b).Perm (windowCells tileN a b) := by
  intro n
  induction n using Nat.strong_induction_on with
  | _ n ih =>
    intro a b hn
    by_cases hab : a ≤ b
    · by_cases heq : a = b
      · subst heq
        rw [spiralWhile.eq_def, dif_pos ⟨le_refl a, le_refl a⟩,
          if_neg (lt_irrefl a), if_neg (lt_irrefl a),
          spiralWhile_stop _ _ _ _ _ (by omega),
          rangeAsc_single, rangeAsc_empty (by omega)]
        unfold windowCells
        rw [rangeAsc_single]
        simp
      · have hab' : a < b := lt_of_le_of_ne hab heq
        have hab2 : a + 1 ≤ b := by omega
        have hsplit : rangeAsc a b = a :: (rangeAsc (a + 1) (b - 1) ++ [b]) := by
          rw [rangeAsc_split_low hab, rangeAsc_split_high hab2]
        -- one pass of the loop
        rw [spiralWhile.eq_def, dif_pos ⟨hab, hab⟩, if_pos hab', if_pos hab']
        -- the inner spiral handles the shrunken window
        have hI : (spiralWhile tileN (a + 1) (b - 1) (a + 1) (b - 1)).Perm
            (windowCells tileN (a + 1) (b - 1)) :=
          ih ((b - 1) + 1 - (a + 1)).toNat (by omega) (a + 1) (b - 1) rfl
        -- bottom row and left column, ascending
        have hBdesc : ((rangeDesc (b - 1) a).map fun x => b * tileN + x).Perm
            ((rangeAsc a (b - 1)).map fun x => b * tileN + x) :=
          (rangeDesc_perm (b - 1) a).map _
        have hBsplit : ((rangeAsc a (b - 1)).map fun x => b * tileN + x) =
            [b * tileN + a] ++ ((rangeAsc (a + 1) (b - 1)).map fun x => b * tileN + x) := by
          conv_lhs => rw [rangeAsc_split_low (by omega : a ≤ b - 1)]
          simp
        have hB : ((rangeDesc (b - 1) a).map fun x => b * tileN + x).Perm
            ([b * tileN + a] ++ ((rangeAsc (a + 1) (b - 1)).map fun x => b * tileN + x)) :=
          hBdesc.trans (hBsplit ▸ List.Perm.refl _)
        have hL : ((rangeDesc (b - 1) (a + 1)).map fun y => y * tileN + a).Perm
            ((rangeAsc (a + 1) (b - 1)).map fun y => y * tileN + a) :=
          (rangeDesc_perm (b - 1) (a + 1)).map _
        -- right column split at its last element
        have hR : ((rangeAsc (a + 1) b).map fun y => y * tileN + b) =
            ((rangeAsc (a + 1) (b - 1)).map fun y => y * tileN + b) ++ [b * tileN + b] := by
          conv_lhs => rw [rangeAsc_split_high hab2]
          simp
        -- top row split into corners and middle
        have hT : ((rangeAsc a b).map fun x => a * tileN + x) =
            [a * tileN + a] ++
              (((rangeAsc (a + 1) (b - 1)).map fun x => a * tileN + x) ++ [a * tileN + b]) := by
          conv_lhs => rw [hsplit]
          simp
        -- the window, decomposed into columns
        have hrowy : ∀ y : ℤ, ((rangeAsc a b).map fun x => y * tileN + x) =
            [y * tileN + a] ++
              (((rangeAsc (a + 1) (b - 1)).map fun x => y * tileN + x) ++ [y * tileN + b]) := by
          intro y
          conv_lhs => rw [hsplit]
          simp
        have hwinStep : windowCells tileN a b =
            (rangeAsc a b).flatMap fun y =>
              [y * tileN + a] ++
                (((rangeAsc (a + 1) (b - 1)).map fun x => y * tileN + x) ++ [y * tileN + b]) := by
          unfold windowCells
          simp only [hrowy]
        have hwinPerm : (windowCells tileN a b).Perm
            (((rangeAsc a b).map fun y => y * tileN + a) ++
              (((rangeAsc a b).flatMap fun y =>
                  (rangeAsc (a + 1) (b - 1)).map fun x => y * tileN + x) ++
                ((rangeAsc a b).map fun y => y * tileN + b))) := by
          rw [hwinStep]
          refine ((List.flatMap_append_perm (rangeAsc a b) (fun y => [y * tileN + a])
            (fun y => ((rangeAsc (a + 1) (b - 1)).map fun x => y * tileN + x) ++
              [y * tileN + b])).symm).trans ?_
          refine List.Perm.append ?_ ?_
          · rw [← List.map_eq_flatMap]
          · refine ((List.flatMap_append_perm (rangeAsc a b)
              (fun y => (rangeAsc (a + 1) (b - 1)).map fun x => y * tileN + x)
              (fun y => [y * tileN + b])).symm).trans ?_
            refine List.Perm.append (List.Perm.refl _) ?_
            rw [← List.map_eq_flatMap]
        -- the three column blocks of the window, split at the corners
        have hcolA : ((rangeAsc a b).map fun y => y * tileN + a) =
            [a * tileN + a] ++
              (((rangeAsc (a + 1) (b - 1)).map fun y => y * tileN + a) ++ [b * tileN + a]) := by
          conv_lhs => rw [hsplit]
          simp
        have hcolB : ((rangeAsc a b).map fun y => y * tileN + b) =
            [a * tileN + b] ++
              (((rangeAsc (a + 1) (b - 1)).map fun y => y * tileN + b) ++ [b * tileN + b]) := by
          conv_lhs => rw [hsplit]
          simp
        have hmidAll : ((rangeAsc a b).flatMap fun y =>
              (rangeAsc (a + 1) (b - 1)).map fun x => y * tileN + x) =
            ((rangeAsc (a + 1) (b - 1)).map fun x => a * tileN + x) ++
              (windowCells tileN (a + 1) (b - 1) ++
                ((rangeAsc (a + 1) (b - 1)).map fun x => b * tileN + x)) := by
          conv_lhs => rw [hsplit]
          unfold windowCells
          simp
        -- count both sides
        rw [List.perm_iff_count]
        intro v
        have cI := List.perm_iff_count.mp hI v
        have cB := List.perm_iff_count.mp hB v
        have cL := List.perm_iff_count.mp hL v
        have cW := List.perm_iff_count.mp hwinPerm v
        rw [hcolA, hcolB, hmidAll] at cW
        rw [hT, hR]
        simp only [List.count_append] at cI cB cL cW ⊢
        omega
    · rw [spiralWhile_stop _ _ _ _ _ (by omega)]
      unfold windowCells
      rw [rangeAsc_empty (by omega)]
      exact List.Perm.refl _

/-- `range (n * m)` row-by-row. -/
theorem range_mul_flatMap (n m : ℕ) :
    List.range (n * m) =
      (List.range n).flatMap fun y => (List.range m).map fun x => y * m + x := by
  induction n with
  | zero => simp
  | succ n ih =>
    rw [Nat.succ_mul, List.range_succ, List.flatMap_append, ← ih, List.range_add]
    simp [Nat.add_comm]

/-- The full-grid window is exactly `[0, …, tileN² - 1]` in order. -/
theorem windowCells_full (tileN : ℕ) :
    windowCells (tileN : ℤ) 0 ((tileN : ℤ) - 1) =
      (List.range (tileN * tileN)).map fun n : ℕ => (n : ℤ) := by
  have hr : rangeAsc 0 ((tileN : ℤ) - 1) = (List.range tileN).map fun i : ℕ => (i : ℤ) := by
    unfold rangeAsc
    rw [show ((tileN : ℤ) - 1 + 1 - 0).toNat = tileN from by omega]
    refine List.map_congr_left fun i _ => ?_
    omega
  unfold windowCells
  rw [hr, range_mul_flatMap tileN tileN, List.map_flatMap, List.flatMap_map]
  refine congrArg (List.flatMap (List.range tileN)) (funext fun y => ?_)
  rw [List.map_map, List.map_map]
  refine List.map_congr_left fun x _ => ?_
  simp only [Function.comp_apply]
  push_cast
  ring

/-- Any cyclic rotation (`slice(r) ++ slice(0, r)`) is a permutation. -/
theorem rotate_perm {α : Type} (l : List α) (r : ℕ) :
    (l.drop r ++ l.take r).Perm l := by
  refine (List.perm_append_comm).trans ?_
  rw [List.take_append_drop]

/-- `makeSpiralOrder` is a permutation of the cell indices of the
`tileN × tileN` grid. -/
theorem makeSpiralOrder_perm (tileN : ℕ) (direction : String) (seed : ℕ) :
    (makeSpiralOrder tileN direction seed).Perm
      ((List.range (tileN * tileN)).map fun n : ℕ => (n : ℤ)) := by
  have hbase : (spiralWhile (tileN : ℤ) 0 ((tileN : ℤ) - 1) 0 ((tileN : ℤ) - 1)).Perm
      ((List.range (tileN * tileN)).map fun n : ℕ => (n : ℤ)) := by
    have h := spiralWhile_square_perm (tileN : ℤ)
      (((tileN : ℤ) - 1) + 1 - 0).toNat 0 ((tileN : ℤ) - 1) rfl
    rw [windowCells_full] at h
    exact h
  simp only [makeSpiralOrder]
  refine (rotate_perm _ _).trans ?_
  split
  · exact (List.reverse_perm _).trans hbase
  · exact hbase

/-! ### Claim C4: the wedge order -/

/-- C4 counterexample: with `tileN = 6` (tileCount 36) and
`wedgeSegments = 36`, the wedge order and the grid tile order of the same
session state are *identical* — both are `makeRandomOrder(36, seed)` with the
same seed — so the wedge LCG is not independently seeded and the orders are
coupled. -/
theorem C4_counterexample :
    revealOrderOf { initialState with tileN := 6, wedgeSegments := 36 } =
      (wedgeOrderOf { initialState with tileN := 6, wedgeSegments := 36 }).map
        (fun n => (n : ℤ)) := by
  decide

/-- C4 (amended): the WedgesRadial order is a random permutation of the
`wedgeSegments` sector indices drawn from its own LCG run, but that run is
seeded with the *same* session seed as the tile order:
`makeSegmentOrder(segments, seed)` is literally `makeRandomOrder(segments,
seed)`, so with equal unit counts the two orders coincide. -/
theorem C4_wedgeOrder (segments seed : ℕ) :
    makeSegmentOrder segments seed = makeRandomOrder segments seed ∧
      (makeSegmentOrder segments seed).Perm (List.range segments) :=
  ⟨rfl, makeRandomOrder_perm segments seed⟩

/-! ### Claim C1: both generators are permutations -/

/-- C1: for every seed and unit count ≥ 1, `makeRandomOrder(tileCount, seed)`
is a permutation of `[0, tileCount)` and `makeSpiralOrder(tileN, direction,
seed)` is a permutation of `[0, tileN²)`: every index appears exactly once. -/
theorem C1_generateOrder_perm :
    (∀ tileCount seed : ℕ, 1 ≤ tileCount →
      (makeRandomOrder tileCount seed).Perm (List.range tileCount)) ∧
    (∀ (tileN : ℕ) (direction : String) (seed : ℕ), 1 ≤ tileN →
      (makeSpiralOrder tileN direction seed).Perm
        ((List.range (tileN ^ 2)).map fun n : ℕ => (n : ℤ))) := by
  refine ⟨fun tileCount seed _ => makeRandomOrder_perm tileCount seed,
    fun tileN direction seed _ => ?_⟩
  rw [pow_two]
  exact makeSpiralOrder_perm tileN direction seed

/-- Witness for C1 at the spec's regression scenario (16 tiles, seed 1) and a
4 × 4 spiral. -/
theorem C1_generateOrder_perm_witness :
    1 ≤ 16 ∧ 1 ≤ 4 ∧
      (makeRandomOrder 16 1).Perm (List.range 16) ∧
      (makeSpiralOrder 4 "outside-in" 1).Perm
        ((List.range (4 ^ 2)).map fun n : ℕ => (n : ℤ)) :=
  ⟨by norm_num, by norm_num, C1_generateOrder_perm.1 16 1 (by norm_num),
    C1_generateOrder_perm.2 4 "outside-in" 1 (by norm_num)⟩

/-! ### Claim C6: the spiral order against the spec's description -/

/-- Modelled from the spec (§4.1 `SpiralGrid`): ring `k` of the
concentric-ring traversal of the `tileN × tileN` grid — top row left-to-right,
right column top-to-bottom, bottom row right-to-left, left column
bottom-to-top — within the square with corners `(k, k)` and
`(tileN - 1 - k, tileN - 1 - k)`. -/
def specRing (tileN k : ℤ) : List ℤ :=
  (rangeAsc k (tileN - 1 - k)).map (fun x => k * tileN + x) ++
    ((rangeAsc (k + 1) (tileN - 1 - k)).map (fun y => y * tileN + (tileN - 1 - k)) ++
      ((if k < tileN - 1 - k then
          (rangeDesc (tileN - 1 - k - 1) k).map (fun x => (tileN - 1 - k) * tileN + x)
        else []) ++
        (if k < tileN - 1 - k then
            (rangeDesc (tileN - 1 - k - 1) (k + 1)).map (fun y => y * tileN + k)
          else [])))

/-- Modelled from the spec (§4.1 `SpiralGrid`): the concentric rings
outside-in, reversed for `inside-out`, then rotated cyclically by
`seed mod length` (rotation `0` for the empty order). -/
def specSpiralOrder (tileN : ℕ) (direction : String) (seed : ℕ) : List ℤ :=
  let rings := (List.range ((tileN + 1) / 2)).flatMap fun k => specRing (tileN : ℤ) (k : ℤ)
  let base := if direction = "inside-out" then rings.reverse else rings
  let rotation := if base.length ≠ 0 then seed % base.length else 0
  base.drop rotation ++ base.take rotation

/-- The spiral loop, run on the square window of layer `a` of a `tileN` grid
(so `a + b = tileN - 1`), emits exactly the concentric rings from layer `a`
inward, in order. -/
theorem spiralWhile_eq_rings (tileN : ℤ) :
    ∀ (n : ℕ) (a b : ℤ), (b + 1 - a).toNat = n → a + b = tileN - 1 →
      spiralWhile tileN a b a b =
        (List.range ((n + 1) / 2)).flatMap fun k => specRing tileN (a + (k : ℤ)) := by
  intro n
  induction n using Nat.strong_induction_on with
  | _ n ih =>
    intro a b hn hsum
    by_cases hab : a ≤ b
    · have hn1 : 1 ≤ n := by omega
      rw [spiralWhile.eq_def, dif_pos ⟨hab, hab⟩]
      have hI := ih ((b - 1) + 1 - (a + 1)).toNat (by omega) (a + 1) (b - 1) rfl (by omega)
      rw [hI, show ((((b - 1) + 1 - (a + 1)).toNat + 1) / 2) = (n - 1) / 2 from by omega,
        show (n + 1) / 2 = (n - 1) / 2 + 1 from by omega,
        List.range_succ_eq_map, List.flatMap_cons, List.flatMap_map]
      have hfun : (fun k : ℕ => specRing tileN (a + 1 + (k : ℤ))) =
          fun k : ℕ => specRing tileN (a + ((Nat.succ k : ℕ) : ℤ)) := by
        funext k
        refine congrArg (specRing tileN) ?_
        push_cast
        ring
      rw [hfun]
      simp only [Nat.cast_zero, add_zero, specRing]
      rw [show tileN - 1 - a = b from by omega]
      simp [List.append_assoc]
    · rw [spiralWhile_stop _ _ _ _ _ (by omega),
        show (n + 1) / 2 = 0 from by omega]
      rfl

/-- C6: `makeSpiralOrder` equals the spec's description — concentric-ring
traversal of the `tileN × tileN` grid, reversed when `direction` is
`"inside-out"`, then cyclically rotated by `seed mod length` — and for unit
counts ≤ 1 it yields `[0]` resp. `[]` (the rotation guard prevents a modulus
by zero). -/
theorem C6_makeSpiralOrder (tileN : ℕ) (direction : String) (seed : ℕ) :
    makeSpiralOrder tileN direction seed = specSpiralOrder tileN direction seed ∧
    (tileN = 1 → makeSpiralOrder tileN direction seed = [0]) ∧
    (tileN = 0 → makeSpiralOrder tileN direction seed = []) := by
  have hbase : spiralWhile (tileN : ℤ) 0 ((tileN : ℤ) - 1) 0 ((tileN : ℤ) - 1) =
      (List.range ((tileN + 1) / 2)).flatMap fun k => specRing (tileN : ℤ) (k : ℤ) := by
    have h := spiralWhile_eq_rings (tileN : ℤ) (((tileN : ℤ) - 1) + 1 - 0).toNat 0
      ((tileN : ℤ) - 1) rfl (by ring)
    rw [show (((tileN : ℤ) - 1) + 1 - 0).toNat = tileN from by omega] at h
    simpa using h
  refine ⟨?_, ?_, ?_⟩
  · simp only [makeSpiralOrder, specSpiralOrder]
    rw [hbase]
  · intro h1
    subst h1
    have h0 : spiralWhile ((1 : ℕ) : ℤ) 0 (((1 : ℕ) : ℤ) - 1) 0 (((1 : ℕ) : ℤ) - 1) = [0] := by
      rw [show (((1 : ℕ) : ℤ) - 1) = 0 from by norm_num]
      rw [spiralWhile.eq_def, dif_pos ⟨le_refl 0, le_refl 0⟩, if_neg (lt_irrefl 0),
        if_neg (lt_irrefl 0), spiralWhile_stop _ _ _ _ _ (by omega),
        rangeAsc_single, rangeAsc_empty (by omega)]
      norm_num
    simp only [makeSpiralOrder]
    rw [h0]
    by_cases hdir : direction = "inside-out" <;> simp [hdir, Nat.mod_one]
  · intro h0
    subst h0
    have hstop : spiralWhile (0 : ℤ) 0 (-1) 0 (-1) = [] :=
      spiralWhile_stop _ _ _ _ _ (by norm_num)
    simp [makeSpiralOrder, hstop]

/-- Witness for C6: a 3 × 3 spiral matches the spec's ring traversal, and a
1 × 1 grid yields the single-element order. -/
theorem C6_makeSpiralOrder_witness :
    makeSpiralOrder 3 "outside-in" 2 = specSpiralOrder 3 "outside-in" 2 ∧
      makeSpiralOrder 1 "inside-out" 7 = [0] :=
  ⟨(C6_makeSpiralOrder 3 "outside-in" 2).1,
    (C6_makeSpiralOrder 1 "inside-out" 7).2.1 rfl⟩

/-! ### Claim C9: the noise overlay is deterministic per state -/

/-- C9: the noise overlay is a function of the seed, the step, and the fixed
geometry/disturbance inputs only — its RNG is reseeded from
`seed * 997 + stepIndex * 911` on every draw — so two renders of the same
state at different wall-clock times (`now`, `lastStepTime`) produce identical
specks. -/
theorem C9_noise_deterministic (seed : ℕ) (stepIndex : ℤ) (stepsTotal disturb : ℕ)
    (dx dy dw dh now₁ lastStepTime₁ now₂ lastStepTime₂ : ℚ) :
    noiseOverlay seed stepIndex stepsTotal disturb dx dy dw dh now₁ lastStepTime₁ =
      noiseOverlay seed stepIndex stepsTotal disturb dx dy dw dh now₂ lastStepTime₂ :=
  rfl

end DalliKlick
